import Mathlib

/-!
Verification of the asset scanner of `src/src-tauri/src/main.rs`
(`scan_unreal_project`).

The scanner is a single pure-looking routine over the filesystem: it joins
the project root with the fixed component `"Content"`, fails when that path
does not exist, otherwise walks the tree with `walkdir`, keeps regular files
whose extension is `uasset` or `umap`, classifies them by filename prefix,
and emits records with an engine-style `/Game/...` virtual path.

The filesystem is shallowly embedded: a path is its list of components, and
the environment (`exists`, `WalkDir`) is a `FileSystem` record of functions.
The `unwrap` on `file_stem()` is modelled as an explicit `panicked` outcome
so that "the scan never aborts" is a provable statement rather than an
artifact of the embedding.
-/

set_option autoImplicit false

namespace BlueprintCodex

/-- Split a list of characters at the last occurrence of `'.'`: `some (a, b)`
with the input equal to `a ++ '.' :: b` and no dot in `b`, or `none` when no
dot occurs.  This is the character-level content of Rust's
`str::rsplit_once('.')` (main.rs line 53) and also the splitting underlying
`Path::extension` / `Path::file_stem`. -/
def splitLastDot : List Char → Option (List Char × List Char)
  | [] => none
  | c :: cs =>
    match splitLastDot cs with
    | some (a, b) => some (c :: a, b)
    | none => if c = '.' then some ([], cs) else none

/-- Rust's `str::rsplit_once('.')` on strings, via `splitLastDot`. -/
def rsplitOnceDot (s : String) : Option (String × String) :=
  match splitLastDot s.data with
  | some (a, b) => some (⟨a⟩, ⟨b⟩)
  | none => none

/-- Rust's `str::starts_with` at the character level (case-sensitive,
anchored at the start). -/
def listStarts : List Char → List Char → Bool
  | [], _ => true
  | _ :: _, [] => false
  | p :: ps, c :: cs => p = c && listStarts ps cs

/-- Rust's `str::starts_with pat` for the prefix checks of main.rs
lines 38-45. -/
def strStarts (s pat : String) : Bool := listStarts pat.data s.data

/-- A filesystem path, modelled as its list of components (what
`Path::components` yields; `Path::new` on a string is the parse producing
this list, which we take as given). -/
structure RsPath where
  components : List String
deriving DecidableEq, Repr

/-- Rust's `Path::join` with a single plain component
(main.rs line 20: `Path::new(&path).join("Content")`). -/
def RsPath.join (p : RsPath) (c : String) : RsPath :=
  ⟨p.components ++ [c]⟩

/-- Rust's `Path::file_name`: the last component. -/
def RsPath.fileName (p : RsPath) : Option String :=
  p.components.getLast?

/-- Rust's `Path::extension`: the part of the file name after its last dot;
`none` when there is no file name, no dot, or the only relevant dot is the
leading character (hidden files such as `".uasset"` have no extension). -/
def RsPath.extension (p : RsPath) : Option String :=
  match p.fileName with
  | none => none
  | some n =>
    match splitLastDot n.data with
    | none => none
    | some (a, b) => if a = [] then none else some ⟨b⟩

/-- Rust's `Path::file_stem`: the file name up to its last dot, or the whole
file name when there is no dot or only the leading dot. -/
def RsPath.fileStem (p : RsPath) : Option String :=
  match p.fileName with
  | none => none
  | some n =>
    match splitLastDot n.data with
    | none => some n
    | some (a, _) => if a = [] then some n else some ⟨a⟩

/-- Component-level engine of `Path::strip_prefix`: drop `base` from the
front of `target`, failing when `base` is not an initial run of `target`. -/
def dropBase : List String → List String → Option (List String)
  | [], rest => some rest
  | _ :: _, [] => none
  | b :: bs, c :: cs => if b = c then dropBase bs cs else none

/-- Rust's `path.strip_prefix(&content_path)` (main.rs line 50), as an
`Option` on component lists. -/
def RsPath.relativize (base p : RsPath) : Option RsPath :=
  (dropBase base.components p.components).map RsPath.mk

/-- `Path::to_string_lossy`: the components joined by the host separator
(`'/'` on Unix hosts, `'\\'` on Windows hosts). -/
def joinSep (sep : Char) : List String → String
  | [] => ""
  | [c] => c
  | c :: cs => c ++ String.singleton sep ++ joinSep sep cs

/-- Display a path as `to_string_lossy` does, given the host separator. -/
def RsPath.display (sep : Char) (p : RsPath) : String :=
  joinSep sep p.components

/-- `.replace("\\", "/")` of main.rs line 51: the pattern is a single
character, so the replacement is a character map. -/
def replaceBackslash (s : String) : String :=
  ⟨s.data.map fun c => if c = '\\' then '/' else c⟩

/-- The `UnrealAsset` record of main.rs lines 11-16. -/
structure UnrealAsset where
  name : String
  path : String
  file_path : String
  asset_type : String
deriving DecidableEq, Repr

/-- The classification chain of main.rs lines 35-47: ordered, first-match,
case-sensitive prefix checks on the stem, with `umap` always `Level`. -/
def classify (ext file_name : String) : String :=
  if ext = "umap" then "Level"
  else if strStarts file_name "BP_" then "Blueprint"
  else if strStarts file_name "M_" then "Material"
  else if strStarts file_name "SM_" then "StaticMesh"
  else if strStarts file_name "T_" then "Texture"
  else "Asset"

/-- The virtual-path computation of main.rs lines 51-53: display the
relative path, turn backslashes into slashes, put `/Game/` in front, and cut
at the last dot of the whole string (unchanged when no dot occurs). -/
def uePathOf (sep : Char) (relative_path : RsPath) : String :=
  let ue_path := "/Game/" ++ replaceBackslash (relative_path.display sep)
  match rsplitOnceDot ue_path with
  | some (a, _) => a
  | none => ue_path

/-- One entry yielded by the `WalkDir` traversal: its path and whether
`path.is_file()` holds for it. -/
structure WalkEntry where
  path : RsPath
  isFile : Bool
deriving DecidableEq, Repr

/-- The filesystem as the external collaborator of the scan: the `exists`
query and the `WalkDir::new(..).into_iter()` entry sequence, whose elements
are either readable entries or per-entry errors. -/
structure FileSystem where
  pathExists : RsPath → Bool
  walkDir : RsPath → List (Except String WalkEntry)

/-- `Result::ok` composed with `filter_map` (main.rs line 27): keep the
readable entries, drop the per-entry errors. -/
def exceptOk {ε α : Type} : Except ε α → Option α
  | Except.ok a => some a
  | Except.error _ => none

/-- The readable entries the loop of main.rs line 27 actually visits. -/
def okEntries (fs : FileSystem) (root : RsPath) : List WalkEntry :=
  (fs.walkDir root).filterMap exceptOk

/-- The loop body of main.rs lines 28-64 for one entry.  `Except.error ()`
models the `unwrap()` panic on `file_stem()` (line 33); `Except.ok none` is
a skipped entry; `Except.ok (some a)` pushes the record `a`. -/
def processEntry (sep : Char) (content_path : RsPath) (e : WalkEntry) :
    Except Unit (Option UnrealAsset) :=
  if e.isFile then
    match e.path.extension with
    | some ext =>
      if ext = "uasset" || ext = "umap" then
        match e.path.fileStem with
        | none => Except.error ()
        | some file_name =>
          match content_path.relativize e.path with
          | some relative_path =>
            Except.ok (some
              { name := file_name
                path := uePathOf sep relative_path
                file_path := e.path.display sep
                asset_type := classify ext file_name })
          | none => Except.ok none
      else Except.ok none
    | none => Except.ok none
  else Except.ok none

/-- The whole loop of main.rs lines 27-66: fold the body over the entries,
a panic aborting everything. -/
def processAll (sep : Char) (content_path : RsPath) :
    List WalkEntry → Except Unit (List UnrealAsset)
  | [] => Except.ok []
  | e :: es =>
    match processEntry sep content_path e with
    | Except.error u => Except.error u
    | Except.ok none => processAll sep content_path es
    | Except.ok (some a) =>
      match processAll sep content_path es with
      | Except.error u => Except.error u
      | Except.ok rest => Except.ok (a :: rest)

/-- The observable outcome of one call of `scan_unreal_project`: the
`Ok(Vec<UnrealAsset>)` and `Err(String)` of the Rust signature, plus an
explicit `panicked` outcome for the `unwrap()`. -/
inductive ScanOutcome where
  | ok (assets : List UnrealAsset)
  | err (msg : String)
  | panicked
deriving DecidableEq, Repr

/-- `scan_unreal_project` of main.rs lines 19-68, over a `FileSystem` and a
host separator. -/
def scan_unreal_project (fs : FileSystem) (sep : Char) (path : RsPath) :
    ScanOutcome :=
  let content_path := path.join "Content"
  if !fs.pathExists content_path then
    ScanOutcome.err "Content folder not found"
  else
    match processAll sep content_path (okEntries fs content_path) with
    | Except.error _ => ScanOutcome.panicked
    | Except.ok assets => ScanOutcome.ok assets

/-- The record the loop pushes for an accepted entry, as a function of the
entry's stem, extension and relative path. -/
def entryRecord (sep : Char) (e : WalkEntry) (file_name : String)
    (ext : String) (relative_path : RsPath) : UnrealAsset :=
  { name := file_name
    path := uePathOf sep relative_path
    file_path := e.path.display sep
    asset_type := classify ext file_name }

/-- The record an entry contributes, if any; `processAll` is `filterMap` of
this once panics are ruled out. -/
def entryAsset (sep : Char) (content_path : RsPath) (e : WalkEntry) :
    Option UnrealAsset :=
  match processEntry sep content_path e with
  | Except.ok o => o
  | Except.error _ => none

/-- The guarantee provided by the `walkdir` collaborator (it is not part of
this repository's sources): every yielded entry is reachable from the walked
root, so its component list extends the root's components.  Modelled from
the spec: step 3 of `scan` enumerates "every entry reachable from
`content_root`". -/
def FileSystem.walkWithinRoot (fs : FileSystem) : Prop :=
  ∀ root e, Except.ok e ∈ fs.walkDir root →
    ∃ rest, e.path.components = root.components ++ rest

/-- A concrete project root used for evaluation. -/
def egRoot : RsPath := ⟨["proj"]⟩

/-- Its content root, `proj/Content`. -/
def egContent : RsPath := ⟨["proj", "Content"]⟩

/-- A concrete traversal of the end-to-end tree of spec §8, together with
the edge entries: an unreadable entry, a hidden `".uasset"` file, a file
without an extension, and the multi-prefix names `BP_M_Foo` / `T_Map.umap`. -/
def egTree : List (Except String WalkEntry) :=
  [Except.ok ⟨⟨["proj", "Content"]⟩, false⟩,
   Except.ok ⟨⟨["proj", "Content", "Characters"]⟩, false⟩,
   Except.ok ⟨⟨["proj", "Content", "Characters", "BP_Hero.uasset"]⟩, true⟩,
   Except.error "permission denied",
   Except.ok ⟨⟨["proj", "Content", "Maps", "Level1.umap"]⟩, true⟩,
   Except.ok ⟨⟨["proj", "Content", "Materials", "M_Skin.uasset"]⟩, true⟩,
   Except.ok ⟨⟨["proj", "Content", "readme.txt"]⟩, true⟩,
   Except.ok ⟨⟨["proj", "Content", ".uasset"]⟩, true⟩,
   Except.ok ⟨⟨["proj", "Content", "BP_M_Foo.uasset"]⟩, true⟩,
   Except.ok ⟨⟨["proj", "Content", "T_Map.umap"]⟩, true⟩,
   Except.ok ⟨⟨["proj", "Content", "noext"]⟩, true⟩]

/-- A filesystem whose only directory is `egContent` with tree `egTree`. -/
def egFS : FileSystem :=
  ⟨fun p => decide (p = egContent),
   fun p => if p = egContent then egTree else []⟩

/-- Observably identical to `egFS` at the content root, different away from
it. -/
def egFSTwin : FileSystem :=
  ⟨fun p => decide (p = egContent),
   fun p => if p = egContent then egTree else [Except.error "elsewhere"]⟩

/-- A tree holding the single asset `proj/Content/Sub/Foo.uasset`. -/
def egFSSub : FileSystem :=
  ⟨fun p => decide (p = egContent),
   fun p =>
     if p = egContent then
       [Except.ok ⟨⟨["proj", "Content"]⟩, false⟩,
        Except.ok ⟨⟨["proj", "Content", "Sub"]⟩, false⟩,
        Except.ok ⟨⟨["proj", "Content", "Sub", "Foo.uasset"]⟩, true⟩]
     else []⟩

/-- A content root that exists but holds no file with an accepted
extension. -/
def egFSEmpty : FileSystem :=
  ⟨fun p => decide (p = egContent),
   fun p =>
     if p = egContent then
       [Except.ok ⟨⟨["proj", "Content"]⟩, false⟩,
        Except.ok ⟨⟨["proj", "Content", "readme.txt"]⟩, true⟩,
        Except.error "broken entry"]
     else []⟩

/-- `proj/Content` exists but is a regular file: the walk yields only the
root entry itself. -/
def egFSContentFile : FileSystem :=
  ⟨fun p => decide (p = egContent),
   fun p => if p = egContent then [Except.ok ⟨egContent, true⟩] else []⟩

/-- The record produced for `proj/Content/BP_M_Foo.uasset`: both `BP_` and
`M_` occur in the name, and the first rule wins. -/
def egAssetBPMFoo : UnrealAsset :=
  ⟨"BP_M_Foo", "/Game/BP_M_Foo", "proj/Content/BP_M_Foo.uasset", "Blueprint"⟩

/-- The record produced for `proj/Content/Sub/Foo.uasset` on a backslash
host. -/
def egAssetFoo : UnrealAsset :=
  ⟨"Foo", "/Game/Sub/Foo", "proj\\Content\\Sub\\Foo.uasset", "Asset"⟩

/-- A regular file whose whole name is `".uasset"`. -/
def egHidden : WalkEntry :=
  ⟨⟨["proj", "Content", ".uasset"]⟩, true⟩

/-- The records the scan of `egFS` produces on a `'/'`-separator host. -/
def egAssets : List UnrealAsset :=
  [⟨"BP_Hero", "/Game/Characters/BP_Hero",
    "proj/Content/Characters/BP_Hero.uasset", "Blueprint"⟩,
   ⟨"Level1", "/Game/Maps/Level1", "proj/Content/Maps/Level1.umap", "Level"⟩,
   ⟨"M_Skin", "/Game/Materials/M_Skin",
    "proj/Content/Materials/M_Skin.uasset", "Material"⟩,
   ⟨"BP_M_Foo", "/Game/BP_M_Foo", "proj/Content/BP_M_Foo.uasset", "Blueprint"⟩,
   ⟨"T_Map", "/Game/T_Map", "proj/Content/T_Map.umap", "Level"⟩]

/-! ### Basic facts about the character-level splitting -/

theorem splitLastDot_eq_none {l : List Char} :
    splitLastDot l = none ↔ '.' ∉ l := by
  induction l with
  | nil => simp [splitLastDot]
  | cons c cs ih =>
    simp only [splitLastDot]
    cases h : splitLastDot cs with
    | some p =>
      have hmem : '.' ∈ cs := by
        by_contra hn
        rw [← ih] at hn
        rw [h] at hn
        cases hn
      simp [List.mem_cons, hmem]
    | none =>
      have hcs : '.' ∉ cs := ih.mp h
      by_cases hc : c = '.'
      · subst hc
        simp
      · simp [hc, List.mem_cons, hcs, Ne.symm hc]

theorem splitLastDot_eq_some {l a b : List Char}
    (h : splitLastDot l = some (a, b)) : l = a ++ '.' :: b ∧ '.' ∉ b := by
  induction l generalizing a b with
  | nil => simp [splitLastDot] at h
  | cons c cs ih =>
    simp only [splitLastDot] at h
    cases hcs : splitLastDot cs with
    | some p =>
      obtain ⟨p1, p2⟩ := p
      rw [hcs] at h
      simp only [Option.some.injEq, Prod.mk.injEq] at h
      obtain ⟨ha, hb⟩ := h
      obtain ⟨hcs', hnb⟩ := ih hcs
      subst ha
      subst hb
      exact ⟨by rw [hcs']; rfl, hnb⟩
    | none =>
      rw [hcs] at h
      by_cases hc : c = '.'
      · rw [if_pos hc] at h
        simp only [Option.some.injEq, Prod.mk.injEq] at h
        obtain ⟨ha, hb⟩ := h
        subst ha
        subst hb
        subst hc
        exact ⟨rfl, splitLastDot_eq_none.mp hcs⟩
      · rw [if_neg hc] at h
        cases h

theorem splitLastDot_append {l₁ l₂ : List Char} (h : '.' ∉ l₁) :
    splitLastDot (l₁ ++ l₂) =
      (splitLastDot l₂).map fun p => (l₁ ++ p.1, p.2) := by
  induction l₁ with
  | nil =>
    cases h2 : splitLastDot l₂ with
    | some p => simp [h2]
    | none => simp [h2]
  | cons c cs ih =>
    have hc : c ≠ '.' := fun he => h (he ▸ List.mem_cons_self c cs)
    have hcs : '.' ∉ cs := fun hm => h (List.mem_cons_of_mem c hm)
    rw [List.cons_append]
    simp only [splitLastDot]
    rw [ih hcs]
    cases h2 : splitLastDot l₂ with
    | some p => simp
    | none => simp [hc]

/-! ### Extension and stem are linked -/

theorem extension_none_of_fileName {p : RsPath} (hn : p.fileName = none) :
    p.extension = none := by
  unfold RsPath.extension
  rw [hn]

theorem extension_eq {p : RsPath} {n : String} (hn : p.fileName = some n) :
    p.extension =
      (match splitLastDot n.data with
        | none => none
        | some (a, b) => if a = [] then none else some ⟨b⟩) := by
  unfold RsPath.extension
  rw [hn]

theorem fileStem_eq {p : RsPath} {n : String} (hn : p.fileName = some n) :
    p.fileStem =
      (match splitLastDot n.data with
        | none => some n
        | some (a, _) => if a = [] then some n else some ⟨a⟩) := by
  unfold RsPath.fileStem
  rw [hn]

theorem fileStem_isSome_of_extension {p : RsPath} {ext : String}
    (h : p.extension = some ext) : ∃ s, p.fileStem = some s := by
  cases hn : p.fileName with
  | none => rw [extension_none_of_fileName hn] at h; cases h
  | some n =>
    rw [extension_eq hn] at h
    rw [fileStem_eq hn]
    cases hs : splitLastDot n.data with
    | none => simp only [hs] at h; cases h
    | some ab =>
      obtain ⟨a, b⟩ := ab
      simp only [hs] at h ⊢
      by_cases ha : a = []
      · rw [if_pos ha] at h; cases h
      · rw [if_neg ha]
        exact ⟨⟨a⟩, rfl⟩

/-! ### The loop never panics and is a `filterMap` -/

theorem entryAsset_not_file {sep : Char} {cp : RsPath} {e : WalkEntry}
    (hf : e.isFile = false) : entryAsset sep cp e = none := by
  simp [entryAsset, processEntry, hf]

theorem entryAsset_no_ext {sep : Char} {cp : RsPath} {e : WalkEntry}
    (hext : e.path.extension = none) : entryAsset sep cp e = none := by
  cases hf : e.isFile <;> simp [entryAsset, processEntry, hf, hext]

theorem entryAsset_bad_ext {sep : Char} {cp : RsPath} {e : WalkEntry}
    {ext : String} (hext : e.path.extension = some ext)
    (hu : ext ≠ "uasset") (hm : ext ≠ "umap") :
    entryAsset sep cp e = none := by
  cases hf : e.isFile <;> simp [entryAsset, processEntry, hf, hext, hu, hm]

theorem entryAsset_no_rel {sep : Char} {cp : RsPath} {e : WalkEntry}
    (hrel : cp.relativize e.path = none) : entryAsset sep cp e = none := by
  cases hf : e.isFile
  · simp [entryAsset, processEntry, hf]
  · cases hext : e.path.extension with
    | none => simp [entryAsset, processEntry, hf, hext]
    | some ext =>
      by_cases hacc : ext = "uasset" ∨ ext = "umap"
      · cases hstem : e.path.fileStem with
        | none =>
          rcases hacc with hacc | hacc <;>
            subst hacc <;> simp [entryAsset, processEntry, hf, hext, hstem]
        | some fn =>
          rcases hacc with hacc | hacc <;>
            subst hacc <;> simp [entryAsset, processEntry, hf, hext, hstem, hrel]
      · push_neg at hacc
        exact entryAsset_bad_ext hext hacc.1 hacc.2

theorem entryAsset_accepted {sep : Char} {cp : RsPath} {e : WalkEntry}
    {ext file_name : String} {relative_path : RsPath}
    (hf : e.isFile = true) (hext : e.path.extension = some ext)
    (hacc : ext = "uasset" ∨ ext = "umap")
    (hstem : e.path.fileStem = some file_name)
    (hrel : cp.relativize e.path = some relative_path) :
    entryAsset sep cp e = some (entryRecord sep e file_name ext relative_path) := by
  rcases hacc with hacc | hacc <;> subst hacc <;>
    simp [entryAsset, processEntry, entryRecord, hf, hext, hstem, hrel]

theorem processEntry_eq_ok (sep : Char) (cp : RsPath) (e : WalkEntry) :
    processEntry sep cp e = Except.ok (entryAsset sep cp e) := by
  cases hf : e.isFile
  · simp [entryAsset, processEntry, hf]
  · cases hext : e.path.extension with
    | none => simp [entryAsset, processEntry, hf, hext]
    | some ext =>
      by_cases hacc : ext = "uasset" ∨ ext = "umap"
      · obtain ⟨s, hs⟩ := fileStem_isSome_of_extension hext
        cases hrel : cp.relativize e.path <;>
          rcases hacc with hacc | hacc <;>
            subst hacc <;> simp [entryAsset, processEntry, hf, hext, hs, hrel]
      · push_neg at hacc
        simp [entryAsset, processEntry, hf, hext, hacc.1, hacc.2]

theorem processAll_eq (sep : Char) (cp : RsPath) (es : List WalkEntry) :
    processAll sep cp es = Except.ok (es.filterMap (entryAsset sep cp)) := by
  induction es with
  | nil => rfl
  | cons e es ih =>
    rw [processAll, processEntry_eq_ok sep cp e, ih]
    cases h : entryAsset sep cp e <;> simp [List.filterMap_cons, h]

theorem entryAsset_eq_some_iff {sep : Char} {cp : RsPath} {e : WalkEntry}
    {r : UnrealAsset} :
    entryAsset sep cp e = some r ↔
      e.isFile = true ∧ ∃ ext file_name relative_path,
        e.path.extension = some ext ∧ (ext = "uasset" ∨ ext = "umap") ∧
        e.path.fileStem = some file_name ∧
        cp.relativize e.path = some relative_path ∧
        r = entryRecord sep e file_name ext relative_path := by
  constructor
  · intro h
    cases hf : e.isFile
    · rw [entryAsset_not_file hf] at h; cases h
    · cases hext : e.path.extension with
      | none => rw [entryAsset_no_ext hext] at h; cases h
      | some ext =>
        by_cases hacc : ext = "uasset" ∨ ext = "umap"
        · cases hstem : e.path.fileStem with
          | none =>
            obtain ⟨s, hs⟩ := fileStem_isSome_of_extension hext
            rw [hstem] at hs; cases hs
          | some fn =>
            cases hrel : cp.relativize e.path with
            | none => rw [entryAsset_no_rel hrel] at h; cases h
            | some rel =>
              rw [entryAsset_accepted hf hext hacc hstem hrel] at h
              exact ⟨rfl, ext, fn, rel, rfl, hacc, rfl, rfl,
                (Option.some.inj h).symm⟩
        · push_neg at hacc
          rw [entryAsset_bad_ext hext hacc.1 hacc.2] at h; cases h
  · rintro ⟨hf, ext, fn, rel, hext, hacc, hstem, hrel, rfl⟩
    exact entryAsset_accepted hf hext hacc hstem hrel

/-! ### The scan as a whole -/

theorem scan_eq_err {fs : FileSystem} {sep : Char} {root : RsPath}
    (h : fs.pathExists (root.join "Content") = false) :
    scan_unreal_project fs sep root = ScanOutcome.err "Content folder not found" := by
  simp [scan_unreal_project, h]

theorem scan_eq_ok {fs : FileSystem} {sep : Char} {root : RsPath}
    (h : fs.pathExists (root.join "Content") = true) :
    scan_unreal_project fs sep root =
      ScanOutcome.ok ((okEntries fs (root.join "Content")).filterMap
        (entryAsset sep (root.join "Content"))) := by
  simp [scan_unreal_project, h, processAll_eq]

/-! ### The virtual path -/

theorem noBackslash_replaceBackslash (s : String) :
    '\\' ∉ (replaceBackslash s).data := by
  intro hmem
  simp only [replaceBackslash, List.mem_map] at hmem
  obtain ⟨c, _, hc⟩ := hmem
  by_cases h : c = '\\'
  · rw [if_pos h] at hc
    exact absurd hc (by decide)
  · rw [if_neg h] at hc
    exact h hc

theorem uePathOf_cases (sep : Char) (rel : RsPath) :
    uePathOf sep rel = "/Game/" ++ replaceBackslash (rel.display sep) ∨
    ∃ a b, splitLastDot (replaceBackslash (rel.display sep)).data = some (a, b) ∧
      uePathOf sep rel = "/Game/" ++ (⟨a⟩ : String) := by
  have hnd : '.' ∉ "/Game/".data := by decide
  simp only [uePathOf, rsplitOnceDot]
  rw [String.data_append, splitLastDot_append hnd]
  cases hs : splitLastDot (replaceBackslash (rel.display sep)).data with
  | none => left; rfl
  | some p =>
    obtain ⟨a, b⟩ := p
    right
    refine ⟨a, b, rfl, ?_⟩
    apply String.ext
    simp [String.data_append]

theorem uePathOf_startsWith (sep : Char) (rel : RsPath) :
    ∃ t, uePathOf sep rel = "/Game/" ++ t := by
  rcases uePathOf_cases sep rel with h | ⟨a, b, _, h⟩
  · exact ⟨_, h⟩
  · exact ⟨_, h⟩

theorem uePathOf_noBackslash (sep : Char) (rel : RsPath) :
    '\\' ∉ (uePathOf sep rel).data := by
  rcases uePathOf_cases sep rel with h | ⟨a, b, hs, h⟩
  · rw [h, String.data_append]
    intro hmem
    rcases List.mem_append.mp hmem with hm | hm
    · exact absurd hm (by decide)
    · exact noBackslash_replaceBackslash _ hm
  · rw [h, String.data_append]
    intro hmem
    rcases List.mem_append.mp hmem with hm | hm
    · exact absurd hm (by decide)
    · obtain ⟨heq, _⟩ := splitLastDot_eq_some hs
      have hin : '\\' ∈ (replaceBackslash (rel.display sep)).data := by
        rw [heq]
        exact List.mem_append.mpr (Or.inl hm)
      exact noBackslash_replaceBackslash _ hin

/-! ### Path helpers -/

theorem dropBase_append (l rest : List String) :
    dropBase l (l ++ rest) = some rest := by
  induction l with
  | nil => rfl
  | cons b bs ih => simp [dropBase, ih]

theorem relativize_append (base : RsPath) (rest : List String) :
    base.relativize ⟨base.components ++ rest⟩ = some ⟨rest⟩ := by
  simp [RsPath.relativize, dropBase_append]

theorem fileName_join (p : RsPath) (c : String) :
    (p.join c).fileName = some c := by
  simp [RsPath.join, RsPath.fileName, List.getLast?_concat]

theorem extension_join_content (p : RsPath) :
    (p.join "Content").extension = none := by
  rw [extension_eq (fileName_join p "Content")]
  rfl

theorem classify_mem (ext file_name : String) :
    classify ext file_name ∈
      (["Level", "Blueprint", "Material", "StaticMesh", "Texture", "Asset"] :
        List String) := by
  unfold classify
  split
  · simp
  · split
    · simp
    · split
      · simp
      · split
        · simp
        · split <;> simp

theorem mem_okEntries {fs : FileSystem} {root : RsPath} {e : WalkEntry} :
    e ∈ okEntries fs root ↔ Except.ok e ∈ fs.walkDir root := by
  unfold okEntries
  rw [List.mem_filterMap]
  constructor
  · rintro ⟨x, hx, hxe⟩
    cases x with
    | ok a =>
      simp only [exceptOk, Option.some.injEq] at hxe
      exact hxe ▸ hx
    | error _ => simp [exceptOk] at hxe
  · intro h
    exact ⟨Except.ok e, h, rfl⟩

/-! ### The claims -/

/-- C1: `scan_unreal_project` fails, with the single content-root-not-found
error, if and only if the project root joined with `"Content"` does not
exist; in that case no records are produced and the traversal is never
consulted, and in every other case the scan returns a (possibly empty) list
of records rather than an error. -/
theorem scan_fails_iff_content_root_missing (fs : FileSystem) (sep : Char)
    (root : RsPath) :
    (scan_unreal_project fs sep root = ScanOutcome.err "Content folder not found"
      ↔ fs.pathExists (root.join "Content") = false)
    ∧ (∀ msg, scan_unreal_project fs sep root = ScanOutcome.err msg →
        msg = "Content folder not found")
    ∧ (fs.pathExists (root.join "Content") = false → ∀ walk,
        scan_unreal_project ⟨fs.pathExists, walk⟩ sep root
          = ScanOutcome.err "Content folder not found")
    ∧ (fs.pathExists (root.join "Content") = true →
        ∃ assets, scan_unreal_project fs sep root = ScanOutcome.ok assets) := by
  cases hex : fs.pathExists (root.join "Content") with
  | false =>
    refine ⟨⟨fun _ => rfl, fun _ => scan_eq_err hex⟩, ?_, ?_, ?_⟩
    · intro msg hmsg
      rw [scan_eq_err hex] at hmsg
      injection hmsg with hm
      exact hm.symm
    · intro _ walk
      exact @scan_eq_err ⟨fs.pathExists, walk⟩ sep root hex
    · intro hcontra
      exact Bool.noConfusion hcontra
  | true =>
    refine ⟨⟨?_, fun hcontra => Bool.noConfusion hcontra⟩, ?_, ?_, ?_⟩
    · intro hmsg
      rw [scan_eq_ok hex] at hmsg
      exact ScanOutcome.noConfusion hmsg
    · intro msg hmsg
      rw [scan_eq_ok hex] at hmsg
      exact ScanOutcome.noConfusion hmsg
    · intro hcontra
      exact Bool.noConfusion hcontra
    · intro _
      exact ⟨_, scan_eq_ok hex⟩

/-- C2: every emitted record's category is produced by the ordered
first-match rule of main.rs lines 35-47 applied to the file's extension and
stem — `umap` always `Level`, else `BP_` / `M_` / `SM_` / `T_` prefixes of
the stem in that order, else `Asset` — so the category is one of the six
labels. -/
theorem emitted_category_first_match (fs : FileSystem) (sep : Char)
    (root : RsPath) (assets : List UnrealAsset) (r : UnrealAsset)
    (h : scan_unreal_project fs sep root = ScanOutcome.ok assets)
    (hr : r ∈ assets) :
    ∃ e ∈ okEntries fs (root.join "Content"), ∃ ext file_name,
      e.path.extension = some ext ∧ e.path.fileStem = some file_name ∧
      (ext = "uasset" ∨ ext = "umap") ∧
      r.asset_type = classify ext file_name ∧
      (ext = "umap" → r.asset_type = "Level") ∧
      (ext = "uasset" → r.asset_type =
        (if strStarts file_name "BP_" then "Blueprint"
         else if strStarts file_name "M_" then "Material"
         else if strStarts file_name "SM_" then "StaticMesh"
         else if strStarts file_name "T_" then "Texture"
         else "Asset")) ∧
      r.asset_type ∈
        (["Level", "Blueprint", "Material", "StaticMesh", "Texture", "Asset"] :
          List String) := by
  cases hex : fs.pathExists (root.join "Content") with
  | false =>
    rw [scan_eq_err hex] at h
    exact ScanOutcome.noConfusion h
  | true =>
    rw [scan_eq_ok hex] at h
    rw [← ScanOutcome.ok.inj h] at hr
    obtain ⟨e, he, hea⟩ := List.mem_filterMap.mp hr
    obtain ⟨hf, ext, fn, rel, hext, hacc, hstem, hrel, hrec⟩ :=
      entryAsset_eq_some_iff.mp hea
    subst hrec
    refine ⟨e, he, ext, fn, hext, hstem, hacc, rfl, ?_, ?_, classify_mem ext fn⟩
    · intro hu
      subst hu
      show classify "umap" fn = "Level"
      unfold classify
      rw [if_pos rfl]
    · intro hu
      subst hu
      show classify "uasset" fn = _
      unfold classify
      rw [if_neg (by decide : ¬("uasset" : String) = "umap")]

/-- C3: every emitted record's virtual path is `"/Game/"` followed by the
path relative to the content root, backslashes turned into forward slashes,
truncated at the last dot of the whole string (unchanged when no dot
occurs); hence it always begins with `/Game/` and contains no backslash. -/
theorem emitted_virtual_path (fs : FileSystem) (sep : Char) (root : RsPath)
    (assets : List UnrealAsset) (r : UnrealAsset)
    (h : scan_unreal_project fs sep root = ScanOutcome.ok assets)
    (hr : r ∈ assets) :
    (∃ e ∈ okEntries fs (root.join "Content"), ∃ rel,
      (root.join "Content").relativize e.path = some rel ∧
      r.path =
        (match rsplitOnceDot ("/Game/" ++ replaceBackslash (rel.display sep)) with
          | some (a, _) => a
          | none => "/Game/" ++ replaceBackslash (rel.display sep))) ∧
    (∃ t, r.path = "/Game/" ++ t) ∧
    '\\' ∉ r.path.data := by
  cases hex : fs.pathExists (root.join "Content") with
  | false =>
    rw [scan_eq_err hex] at h
    exact ScanOutcome.noConfusion h
  | true =>
    rw [scan_eq_ok hex] at h
    rw [← ScanOutcome.ok.inj h] at hr
    obtain ⟨e, he, hea⟩ := List.mem_filterMap.mp hr
    obtain ⟨hf, ext, fn, rel, hext, hacc, hstem, hrel, hrec⟩ :=
      entryAsset_eq_some_iff.mp hea
    subst hrec
    refine ⟨⟨e, he, rel, hrel, rfl⟩, ?_, ?_⟩
    · exact uePathOf_startsWith sep rel
    · exact uePathOf_noBackslash sep rel

/-- C4: an entry yields a record only if it is a regular file whose
extension is exactly `uasset` or `umap`; directories, files with other
extensions and extensionless files are excluded, and each traversed entry
contributes at most one record (the result is a `filterMap` over the
entries). -/
theorem records_only_accepted_files (fs : FileSystem) (sep : Char)
    (root : RsPath) (assets : List UnrealAsset)
    (h : scan_unreal_project fs sep root = ScanOutcome.ok assets) :
    assets = (okEntries fs (root.join "Content")).filterMap
        (entryAsset sep (root.join "Content"))
    ∧ (∀ r ∈ assets, ∃ e ∈ okEntries fs (root.join "Content"),
        e.isFile = true ∧ ∃ ext, e.path.extension = some ext ∧
          (ext = "uasset" ∨ ext = "umap"))
    ∧ (∀ e : WalkEntry, e.isFile = false →
        entryAsset sep (root.join "Content") e = none)
    ∧ (∀ e : WalkEntry, e.path.extension = none →
        entryAsset sep (root.join "Content") e = none)
    ∧ (∀ e : WalkEntry, ∀ ext, e.path.extension = some ext →
        ext ≠ "uasset" → ext ≠ "umap" →
        entryAsset sep (root.join "Content") e = none) := by
  cases hex : fs.pathExists (root.join "Content") with
  | false =>
    rw [scan_eq_err hex] at h
    exact ScanOutcome.noConfusion h
  | true =>
    rw [scan_eq_ok hex] at h
    have hl := (ScanOutcome.ok.inj h).symm
    refine ⟨hl, ?_, ?_, ?_, ?_⟩
    · intro r hr
      rw [hl] at hr
      obtain ⟨e, he, hea⟩ := List.mem_filterMap.mp hr
      obtain ⟨hf, ext, fn, rel, hext, hacc, _, _, _⟩ :=
        entryAsset_eq_some_iff.mp hea
      exact ⟨e, he, hf, ext, hext, hacc⟩
    · intro e hf
      exact entryAsset_not_file hf
    · intro e hext
      exact entryAsset_no_ext hext
    · intro e ext hext hu hm
      exact entryAsset_bad_ext hext hu hm

/-- C5: once the content root exists no per-entry anomaly aborts the scan:
unreadable traversal entries are dropped before the loop, an entry whose
path cannot be relativized is dropped, the `unwrap` on the stem can never
fire, and the scan returns a success result for the remaining entries. -/
theorem scan_tolerates_entry_anomalies (fs : FileSystem) (sep : Char)
    (root : RsPath)
    (h : fs.pathExists (root.join "Content") = true) :
    (∀ e : WalkEntry, processEntry sep (root.join "Content") e ≠ Except.error ())
    ∧ (∀ e : WalkEntry, (root.join "Content").relativize e.path = none →
        entryAsset sep (root.join "Content") e = none)
    ∧ scan_unreal_project fs sep root ≠ ScanOutcome.panicked
    ∧ scan_unreal_project fs sep root =
        ScanOutcome.ok ((okEntries fs (root.join "Content")).filterMap
          (entryAsset sep (root.join "Content"))) := by
  refine ⟨?_, ?_, ?_, scan_eq_ok h⟩
  · intro e he
    rw [processEntry_eq_ok] at he
    exact Except.noConfusion he
  · intro e hrel
    exact entryAsset_no_rel hrel
  · intro hc
    rw [scan_eq_ok h] at hc
    exact ScanOutcome.noConfusion hc

/-- C6: when the content root exists but holds no regular file with an
accepted extension (in particular when it is completely empty), the scan
returns a success carrying the empty list, not an error. -/
theorem scan_empty_content_ok (fs : FileSystem) (sep : Char) (root : RsPath)
    (h1 : fs.pathExists (root.join "Content") = true)
    (h2 : ∀ e ∈ okEntries fs (root.join "Content"), e.isFile = true →
        e.path.extension ≠ some "uasset" ∧ e.path.extension ≠ some "umap") :
    scan_unreal_project fs sep root = ScanOutcome.ok [] := by
  rw [scan_eq_ok h1]
  congr 1
  rw [List.filterMap_eq_nil_iff]
  intro e he
  cases hf : e.isFile
  · exact entryAsset_not_file hf
  · cases hext : e.path.extension with
    | none => exact entryAsset_no_ext hext
    | some ext =>
      obtain ⟨hu, hm⟩ := h2 e he hf
      refine entryAsset_bad_ext hext ?_ ?_
      · intro hc
        subst hc
        exact hu hext
      · intro hc
        subst hc
        exact hm hext

/-- C7: the scan result is a deterministic function of the content root's
existence and the traversed entry sequence: two filesystems agreeing on both
at the content root give identical results, so scanning the same unchanged
tree twice yields the same records. -/
theorem scan_deterministic_in_traversal (fs₁ fs₂ : FileSystem) (sep : Char)
    (root : RsPath)
    (hE : fs₁.pathExists (root.join "Content")
        = fs₂.pathExists (root.join "Content"))
    (hW : fs₁.walkDir (root.join "Content")
        = fs₂.walkDir (root.join "Content")) :
    scan_unreal_project fs₁ sep root = scan_unreal_project fs₂ sep root := by
  cases hex : fs₂.pathExists (root.join "Content") with
  | false => rw [scan_eq_err (hE.trans hex), scan_eq_err hex]
  | true =>
    rw [scan_eq_ok (hE.trans hex), scan_eq_ok hex]
    unfold okEntries
    rw [hW]

/-- C8: when `<project_root>/Content` exists but is a regular file, the
existence check passes, the walk yields only that single file named
`Content` — which has no accepted extension — and the scan returns a
success with the empty list, not the content-root error. -/
theorem content_root_as_file_scans_empty (fs : FileSystem) (sep : Char)
    (root : RsPath)
    (h1 : fs.pathExists (root.join "Content") = true)
    (h2 : fs.walkDir (root.join "Content")
        = [Except.ok ⟨root.join "Content", true⟩]) :
    scan_unreal_project fs sep root = ScanOutcome.ok []
    ∧ (root.join "Content").extension = none
    ∧ (∀ msg, scan_unreal_project fs sep root ≠ ScanOutcome.err msg) := by
  have hok : scan_unreal_project fs sep root = ScanOutcome.ok [] := by
    rw [scan_eq_ok h1]
    have he : okEntries fs (root.join "Content")
        = [⟨root.join "Content", true⟩] := by
      unfold okEntries
      rw [h2]
      rfl
    rw [he]
    have hnone : entryAsset sep (root.join "Content")
        (⟨root.join "Content", true⟩ : WalkEntry) = none :=
      entryAsset_no_ext (extension_join_content root)
    simp [List.filterMap_cons, hnone]
  refine ⟨hok, extension_join_content root, ?_⟩
  intro msg hc
  rw [hok] at hc
  exact ScanOutcome.noConfusion hc

/-- C9: under the walkdir guarantee that every yielded entry extends the
walked root, the relativization of main.rs line 50 succeeds for every
traversed entry — its defensive skip branch is unreachable — and every
readable regular file with an accepted extension contributes exactly one
record to the successful result. -/
theorem walk_under_root_always_relativizes (fs : FileSystem) (sep : Char)
    (root : RsPath) (hw : fs.walkWithinRoot)
    (h : fs.pathExists (root.join "Content") = true) :
    (∀ e ∈ okEntries fs (root.join "Content"),
        ∃ rel, (root.join "Content").relativize e.path = some rel)
    ∧ (∀ e ∈ okEntries fs (root.join "Content"), e.isFile = true →
        ∀ ext, e.path.extension = some ext → (ext = "uasset" ∨ ext = "umap") →
        ∃ r, entryAsset sep (root.join "Content") e = some r)
    ∧ scan_unreal_project fs sep root =
        ScanOutcome.ok ((okEntries fs (root.join "Content")).filterMap
          (entryAsset sep (root.join "Content"))) := by
  have hrel : ∀ e ∈ okEntries fs (root.join "Content"),
      ∃ rel, (root.join "Content").relativize e.path = some rel := by
    intro e he
    obtain ⟨rest, hrest⟩ := hw (root.join "Content") e (mem_okEntries.mp he)
    have hp : e.path = ⟨(root.join "Content").components ++ rest⟩ :=
      congrArg RsPath.mk hrest
    rw [hp]
    exact ⟨⟨rest⟩, relativize_append _ rest⟩
  refine ⟨hrel, ?_, scan_eq_ok h⟩
  intro e he hf ext hext hacc
  obtain ⟨stem, hstem⟩ := fileStem_isSome_of_extension hext
  obtain ⟨rel, hr⟩ := hrel e he
  exact ⟨_, entryAsset_accepted hf hext hacc hstem hr⟩

/-- C10: a file whose whole name is `".uasset"` or `".umap"` has no
extension under the path semantics the scan uses, so the extension lookup
returns `none`, the entry yields no record, and the stem `unwrap` is never
reached. -/
theorem leading_dot_name_skipped (sep : Char) (content_path : RsPath)
    (e : WalkEntry)
    (h : e.path.fileName = some ".uasset" ∨ e.path.fileName = some ".umap") :
    e.path.extension = none
    ∧ entryAsset sep content_path e = none
    ∧ processEntry sep content_path e = Except.ok none := by
  have hext : e.path.extension = none := by
    rcases h with h | h <;> rw [extension_eq h] <;> rfl
  refine ⟨hext, entryAsset_no_ext hext, ?_⟩
  rw [processEntry_eq_ok, entryAsset_no_ext hext]

/-! ### Concrete witnesses -/

/-- Witness for C2 at the `BP_M_Foo.uasset` entry of the concrete tree. -/
theorem emitted_category_first_match_witness :
    ∃ e ∈ okEntries egFS (egRoot.join "Content"), ∃ ext file_name,
      e.path.extension = some ext ∧ e.path.fileStem = some file_name ∧
      (ext = "uasset" ∨ ext = "umap") ∧
      egAssetBPMFoo.asset_type = classify ext file_name ∧
      (ext = "umap" → egAssetBPMFoo.asset_type = "Level") ∧
      (ext = "uasset" → egAssetBPMFoo.asset_type =
        (if strStarts file_name "BP_" then "Blueprint"
         else if strStarts file_name "M_" then "Material"
         else if strStarts file_name "SM_" then "StaticMesh"
         else if strStarts file_name "T_" then "Texture"
         else "Asset")) ∧
      egAssetBPMFoo.asset_type ∈
        (["Level", "Blueprint", "Material", "StaticMesh", "Texture", "Asset"] :
          List String) :=
  emitted_category_first_match egFS '/' egRoot egAssets egAssetBPMFoo
    (by decide) (by decide)

/-- Witness for C3: the file at `proj/Content/Sub/Foo.uasset` on a
backslash-separator host gets virtual path `/Game/Sub/Foo`. -/
theorem emitted_virtual_path_witness :
    (∃ e ∈ okEntries egFSSub (egRoot.join "Content"), ∃ rel,
      (egRoot.join "Content").relativize e.path = some rel ∧
      egAssetFoo.path =
        (match rsplitOnceDot ("/Game/" ++ replaceBackslash (rel.display '\\')) with
          | some (a, _) => a
          | none => "/Game/" ++ replaceBackslash (rel.display '\\'))) ∧
    (∃ t, egAssetFoo.path = "/Game/" ++ t) ∧
    '\\' ∉ egAssetFoo.path.data :=
  emitted_virtual_path egFSSub '\\' egRoot [egAssetFoo] egAssetFoo
    (by decide) (by decide)

/-- Witness for C4 on the concrete tree. -/
theorem records_only_accepted_files_witness :
    egAssets = (okEntries egFS (egRoot.join "Content")).filterMap
        (entryAsset '/' (egRoot.join "Content"))
    ∧ (∀ r ∈ egAssets, ∃ e ∈ okEntries egFS (egRoot.join "Content"),
        e.isFile = true ∧ ∃ ext, e.path.extension = some ext ∧
          (ext = "uasset" ∨ ext = "umap"))
    ∧ (∀ e : WalkEntry, e.isFile = false →
        entryAsset '/' (egRoot.join "Content") e = none)
    ∧ (∀ e : WalkEntry, e.path.extension = none →
        entryAsset '/' (egRoot.join "Content") e = none)
    ∧ (∀ e : WalkEntry, ∀ ext, e.path.extension = some ext →
        ext ≠ "uasset" → ext ≠ "umap" →
        entryAsset '/' (egRoot.join "Content") e = none) :=
  records_only_accepted_files egFS '/' egRoot egAssets (by decide)

/-- Witness for C5 on the concrete tree, whose traversal holds an
unreadable entry. -/
theorem scan_tolerates_entry_anomalies_witness :
    (∀ e : WalkEntry, processEntry '/' (egRoot.join "Content") e ≠ Except.error ())
    ∧ (∀ e : WalkEntry, (egRoot.join "Content").relativize e.path = none →
        entryAsset '/' (egRoot.join "Content") e = none)
    ∧ scan_unreal_project egFS '/' egRoot ≠ ScanOutcome.panicked
    ∧ scan_unreal_project egFS '/' egRoot =
        ScanOutcome.ok ((okEntries egFS (egRoot.join "Content")).filterMap
          (entryAsset '/' (egRoot.join "Content"))) :=
  scan_tolerates_entry_anomalies egFS '/' egRoot (by decide)

/-- Witness for C6: a content root with only a directory, a `readme.txt`
and an unreadable entry scans to the empty list. -/
theorem scan_empty_content_ok_witness :
    scan_unreal_project egFSEmpty '/' egRoot = ScanOutcome.ok [] :=
  scan_empty_content_ok egFSEmpty '/' egRoot (by decide) (by decide)

/-- Witness for C7: two filesystems agreeing at the content root scan
identically. -/
theorem scan_deterministic_in_traversal_witness :
    scan_unreal_project egFS '/' egRoot
      = scan_unreal_project egFSTwin '/' egRoot :=
  scan_deterministic_in_traversal egFS egFSTwin '/' egRoot rfl rfl

/-- Witness for C8: `proj/Content` as a regular file scans to the empty
list. -/
theorem content_root_as_file_scans_empty_witness :
    scan_unreal_project egFSContentFile '/' egRoot = ScanOutcome.ok []
    ∧ (egRoot.join "Content").extension = none
    ∧ (∀ msg, scan_unreal_project egFSContentFile '/' egRoot
        ≠ ScanOutcome.err msg) :=
  content_root_as_file_scans_empty egFSContentFile '/' egRoot (by decide) rfl

/-- Witness for C9 on the `Sub/Foo.uasset` tree, with the walkdir guarantee
established by inspection of every entry. -/
theorem walk_under_root_always_relativizes_witness :
    (∀ e ∈ okEntries egFSSub (egRoot.join "Content"),
        ∃ rel, (egRoot.join "Content").relativize e.path = some rel)
    ∧ (∀ e ∈ okEntries egFSSub (egRoot.join "Content"), e.isFile = true →
        ∀ ext, e.path.extension = some ext → (ext = "uasset" ∨ ext = "umap") →
        ∃ r, entryAsset '/' (egRoot.join "Content") e = some r)
    ∧ scan_unreal_project egFSSub '/' egRoot =
        ScanOutcome.ok ((okEntries egFSSub (egRoot.join "Content")).filterMap
          (entryAsset '/' (egRoot.join "Content"))) :=
  walk_under_root_always_relativizes egFSSub '/' egRoot
    (by
      intro root e he
      simp only [egFSSub] at he
      by_cases hr : root = egContent
      · subst hr
        rw [if_pos rfl] at he
        simp only [List.mem_cons, List.not_mem_nil, or_false,
          Except.ok.injEq] at he
        rcases he with rfl | rfl | rfl
        · exact ⟨[], rfl⟩
        · exact ⟨["Sub"], rfl⟩
        · exact ⟨["Sub", "Foo.uasset"], rfl⟩
      · rw [if_neg hr] at he
        exact absurd he (List.not_mem_nil _))
    (by decide)

/-- Witness for C10 at the hidden file `proj/Content/.uasset`. -/
theorem leading_dot_name_skipped_witness :
    egHidden.path.extension = none
    ∧ entryAsset '/' egContent egHidden = none
    ∧ processEntry '/' egContent egHidden = Except.ok none :=
  leading_dot_name_skipped '/' egContent egHidden (Or.inl (by decide))

end BlueprintCodex
